import Mathlib

/-!
# Verification of the trading-log reconstruction pipeline (`src/main.py`)

A shallow embedding of the pipeline's core stages, text handled as `List Char`
(Python `str`), `pandas` timestamps as an explicit proleptic-Gregorian
`DateTime` record compared through a linearisation to seconds, and the float
`price_usd` column as an exact integer-valued scalar (the claims only carry the
price through and multiply it by an integer quantity; no claim depends on
fractional float arithmetic, so `Int` is used for kernel computability).

Stages embedded, following `src/main.py`:
* `mergeFragments`, `boundaryPositions`, `spansOf`, `entriesOf`, `recordsOf`,
  `parseLogs`  — `parse_logs` (lines 42-84);
* `findOrder`, `ordersOf`, `settlementsOf`, `correlate`, `extractTransactions`
  — `extract_transactions` (lines 170-200);
* `skuOfQuote`, `readMarketPrices` — `read_market_prices` (lines 138-167);
* `readSkus` — `read_skus` (lines 87-135), the file-reading boundary modelled
  by a flag for the file's presence and the decoded rows;
* `asofLookup`, `enrichTransactions` — `enrich_transactions` (lines 203-257),
  with `pd.merge_asof` embedded as the backward as-of lookup over the
  time-sorted price rows and the pandas error paths (a merge column missing
  from an empty frame, null merge keys) surfaced as `Except.error`.
-/

namespace Ferovinum

/-! ## Calendar arithmetic (pandas datetimes, `dt.year/quarter/isocalendar`) -/

/-- A parsed `YYYY-MM-DD HH:MM:SS` timestamp (proleptic Gregorian). -/
structure DateTime where
  year : Nat
  month : Nat
  day : Nat
  hour : Nat
  minute : Nat
  second : Nat
deriving DecidableEq, Repr

def isLeap (y : Nat) : Bool :=
  (y % 4 == 0 && y % 100 != 0) || y % 400 == 0

/-- Month lengths for a (non-)leap year, January first. -/
def monthLengths (leap : Bool) : List Nat :=
  [31, if leap then 29 else 28, 31, 30, 31, 30, 31, 31, 30, 31, 30, 31]

def daysInMonth (y m : Nat) : Nat :=
  (monthLengths (isLeap y)).getD (m - 1) 0

/-- 1-based ordinal of a day within its year. -/
def dayOfYear (y m d : Nat) : Nat :=
  ((monthLengths (isLeap y)).take (m - 1)).sum + d

/-- Days of the proleptic Gregorian calendar strictly before year `y`
(counted from year 1). -/
def daysBeforeYear (y : Nat) : Nat :=
  365 * (y - 1) + ((y - 1) / 4 + (y - 1) / 400 - (y - 1) / 100)

/-- 1-based day number: `dayNumber 1 1 1 = 1` (a Monday). -/
def dayNumber (y m d : Nat) : Nat :=
  daysBeforeYear y + dayOfYear y m d

/-- Linearisation of a timestamp to seconds; datetime comparisons in the
pandas joins are embedded as `Nat` comparisons of this key. -/
def toSec (t : DateTime) : Nat :=
  ((dayNumber t.year t.month t.day - 1) * 24 + t.hour) * 3600
    + t.minute * 60 + t.second

/-- ISO-8601 weekday, Monday = 1 .. Sunday = 7. -/
def isoWeekday (t : DateTime) : Nat :=
  (dayNumber t.year t.month t.day - 1) % 7 + 1

/-- Weekday index used by the ISO long-year rule. -/
def isoYearP (y : Nat) : Nat :=
  (y + y / 4 + y / 400 - y / 100) % 7

/-- Number of ISO-8601 weeks in year `y` (52 or 53). -/
def isoWeeksInYear (y : Nat) : Nat :=
  if isoYearP y = 4 ∨ isoYearP (y - 1) = 3 then 53 else 52

/-- ISO-8601 week number of a date: weeks start on Monday and week 1 is the
week containing the year's first Thursday.  This is the algorithm
`Timestamp.isocalendar()` (hence `.dt.isocalendar().week`, line 246) computes. -/
def isoWeek (t : DateTime) : Nat :=
  let w := (10 + dayOfYear t.year t.month t.day - isoWeekday t) / 7
  if w = 0 then isoWeeksInYear (t.year - 1)
  else if isoWeeksInYear t.year < w then 1
  else w

/-- The string form of `timestamp.dt.to_period("Q")` (line 245), e.g. "2024Q1". -/
def quarterLabel (t : DateTime) : String :=
  toString t.year ++ "Q" ++ toString ((t.month + 2) / 3)

/-! ## Python string helpers -/

/-- Python `\s` (ASCII whitespace as it occurs in the logs). -/
def pySpace (c : Char) : Bool :=
  c = ' ' || c = '\t' || c = '\n' || c = '\r' || c = '\x0b' || c = '\x0c'

/-- Match a literal, returning the rest of the input. -/
def matchLit : List Char → List Char → Option (List Char)
  | [], cs => some cs
  | _ :: _, [] => none
  | l :: ls, c :: cs => if c = l then matchLit ls cs else none

/-- Consume exactly `n` decimal digits. -/
def matchNDigits : Nat → List Char → Option (List Char)
  | 0, cs => some cs
  | _ + 1, [] => none
  | n + 1, c :: cs => if c.isDigit then matchNDigits n cs else none

/-- Leftmost index at which `sep` occurs in `cs` (Python `str.find`). -/
def findSub (sep : List Char) : List Char → Option Nat
  | [] => if sep.isEmpty then some 0 else none
  | cs@(_ :: rest) =>
    if sep.isPrefixOf cs then some 0
    else (findSub sep rest).map (· + 1)

/-- Python `s.split(sep, maxsplit)` for a non-empty separator. -/
def splitMax (sep : List Char) : Nat → List Char → List (List Char)
  | 0, cs => [cs]
  | n + 1, cs =>
    match findSub sep cs with
    | none => [cs]
    | some i => cs.take i :: splitMax sep n (cs.drop (i + sep.length))

/-- Python `str.strip()`: whitespace removed from both ends. -/
def pyStrip (cs : List Char) : List Char :=
  ((cs.dropWhile pySpace).reverse.dropWhile pySpace).reverse

/-- Decimal digits to a number (the regex guarantees digits only). -/
def digitsToNat (cs : List Char) : Nat :=
  cs.foldl (fun a c => a * 10 + (c.toNat - 48)) 0

/-- Split on `'\n'` into physical lines (Python `str.split("\n")`). -/
def splitLines : List Char → List (List Char)
  | [] => [[]]
  | c :: rest =>
    let r := splitLines rest
    if c = '\n' then [] :: r
    else
      match r with
      | [] => [[c]]
      | l :: ls => (c :: l) :: ls

/-! ## parse_logs (lines 42-84) -/

/-- The fragment-merging loop of `parse_logs` (lines 42-49): the accumulated
text followed by the next fragment, a `"\n"` inserted exactly when the
accumulated text is empty or already ends with `"\n"`.  (This is the code as
written; the condition is inverted relative to the newline-boundary contract,
see `C4_run`.) -/
def mergeStep (full_text file_content : String) : String :=
  if full_text ≠ "" ∧ full_text.data.getLast? ≠ some '\n' then
    full_text ++ file_content
  else full_text ++ "\n" ++ file_content

/-- `full_text` after the read loop, fragments taken in sequence order. -/
def mergeFragments (fragments : List String) : String :=
  fragments.foldl mergeStep ""

/-- Does `cs` start with `YYYY-MM-DD HH:MM:SS` (digit shape only, as the
regex checks it)? -/
def matchStamp (cs : List Char) : Option (List Char) :=
  (matchNDigits 4 cs).bind fun cs =>
  (matchLit ['-'] cs).bind fun cs =>
  (matchNDigits 2 cs).bind fun cs =>
  (matchLit ['-'] cs).bind fun cs =>
  (matchNDigits 2 cs).bind fun cs =>
  (matchLit [' '] cs).bind fun cs =>
  (matchNDigits 2 cs).bind fun cs =>
  (matchLit [':'] cs).bind fun cs =>
  (matchNDigits 2 cs).bind fun cs =>
  (matchLit [':'] cs).bind fun cs =>
  matchNDigits 2 cs

def messageTypes : List String := ["ORDER", "RESULT", "TRANSACTION", "RESPONSE"]

/-- Does the entry-boundary regex (lines 56-60) match at the head of `cs`?
`^<stamp> \| <TYPE> \|` with `<TYPE>` one of the four message types. -/
def boundaryAt (cs : List Char) : Bool :=
  match matchStamp cs with
  | none => false
  | some cs =>
    match matchLit (' ' :: '|' :: ' ' :: []) cs with
    | none => false
    | some cs =>
      messageTypes.any fun t =>
        ((matchLit t.data cs).bind (matchLit (' ' :: '|' :: []))).isSome

/-- Is position `i` a line start of `cs` (re.MULTILINE `^`)? -/
def lineStart (cs : List Char) (i : Nat) : Bool :=
  i == 0 || cs.getD (i - 1) ' ' == '\n'

/-- Start positions of the boundary matches (`finditer`, lines 62).  A match
of the boundary pattern contains no newline, so no two boundary positions can
overlap and the non-overlapping `finditer` scan finds exactly the line-start
positions where the pattern matches. -/
def boundaryPositions (cs : List Char) : List Nat :=
  (List.range cs.length).filter fun i => lineStart cs i && boundaryAt (cs.drop i)

/-- The span loop of lines 66-70: each match start paired with the next match
start, the last with `len(full_text)`. -/
def spansFrom : List Nat → Nat → List (Nat × Nat)
  | [], _ => []
  | [a], len => [(a, len)]
  | a :: b :: t, len => (a, b) :: spansFrom (b :: t) len

def spansOf (cs : List Char) : List (Nat × Nat) :=
  spansFrom (boundaryPositions cs) cs.length

/-- `full_text[start:end].strip().replace("\n", " ")` (line 69). -/
def entryOfSpan (cs : List Char) (se : Nat × Nat) : List Char :=
  (pyStrip ((cs.drop se.1).take (se.2 - se.1))).map fun c =>
    if c = '\n' then ' ' else c

/-- The reconstructed entries, one per boundary match. -/
def entriesOf (cs : List Char) : List (List Char) :=
  (spansOf cs).map (entryOfSpan cs)

/-- `" | "`, the field separator. -/
def fieldSep : List Char := ' ' :: '|' :: ' ' :: []

/-- The record loop of lines 72-78: each entry split at most 3 times on
`" | "`; only 4-field entries are kept, the rest are skipped (diagnosed, not
raised). -/
def recordsOf (cs : List Char) : List (List (List Char)) :=
  (entriesOf cs).filterMap fun e =>
    let parts := splitMax fieldSep 3 e
    if parts.length = 4 then some parts else none

/-- `pd.to_datetime(..., errors="coerce")` (line 81) restricted to the
`YYYY-MM-DD HH:MM:SS` shape the boundary grammar produces: a calendar-valid
stamp parses, anything else becomes null.  (The `datetime64[ns]` year range
is not modelled; no claim depends on it.) -/
def parseStamp (cs : List Char) : Option DateTime :=
  match cs with
  | [y1, y2, y3, y4, '-', m1, m2, '-', d1, d2, ' ',
     h1, h2, ':', n1, n2, ':', s1, s2] =>
    if [y1, y2, y3, y4, m1, m2, d1, d2, h1, h2, n1, n2, s1, s2].all Char.isDigit
    then
      let y := digitsToNat [y1, y2, y3, y4]
      let m := digitsToNat [m1, m2]
      let d := digitsToNat [d1, d2]
      let h := digitsToNat [h1, h2]
      let mi := digitsToNat [n1, n2]
      let s := digitsToNat [s1, s2]
      if 1 ≤ m ∧ m ≤ 12 ∧ 1 ≤ d ∧ d ≤ daysInMonth y m ∧ h ≤ 23 ∧ mi ≤ 59 ∧ s ≤ 59
      then some ⟨y, m, d, h, mi, s⟩
      else none
    else none
  | _ => none

/-- A row of the parsed-logs frame (line 80): columns `timestamp` (nullable
after coercion), `message_type`, `trace_id`, `details`. -/
structure LogEntry where
  timestamp : Option DateTime
  message_type : List Char
  trace_id : List Char
  details : List Char
deriving DecidableEq, Repr

def toLogEntry (parts : List (List Char)) : LogEntry :=
  { timestamp := parseStamp (parts.getD 0 [])
    message_type := parts.getD 1 []
    trace_id := parts.getD 2 []
    details := parts.getD 3 [] }

/-- `parse_logs` on already-merged text: the parsed-entry rows.  The function
is total: malformed entries are dropped, never raised. -/
def parseLogs (t : String) : List LogEntry :=
  (recordsOf t.data).map toLogEntry

/-! ## extract_transactions (lines 170-200) -/

inductive TradeAction where
  | buy
  | sell
deriving DecidableEq, Repr

/-- Consume a maximal non-empty run of characters satisfying `p`, or fail.
In the order pattern every `+`-quantified class is followed by a disjoint
class (or the match ends), so the greedy runs are forced maximal and the
regex needs no backtracking inside a match attempt. -/
def takeRun (p : Char → Bool) (cs : List Char) : Option (List Char × List Char) :=
  let tk := cs.takeWhile p
  if tk.isEmpty then none else some (tk, cs.drop tk.length)

/-- One attempt of `(buy|sell)\s+(\S+)\s+(\d+)` (line 184) anchored at the
head of `cs`: the alternation tries `buy` then `sell`, then whitespace,
a non-whitespace token (the sku), whitespace, and a digit run (the quantity). -/
def matchOrderAt (cs : List Char) : Option (TradeAction × List Char × Nat) :=
  let afterAct : Option (TradeAction × List Char) :=
    match matchLit ('b' :: 'u' :: 'y' :: []) cs with
    | some rest => some (TradeAction.buy, rest)
    | none =>
      match matchLit ('s' :: 'e' :: 'l' :: 'l' :: []) cs with
      | some rest => some (TradeAction.sell, rest)
      | none => none
  match afterAct with
  | none => none
  | some (a, rest) =>
    match takeRun pySpace rest with
    | none => none
    | some (_, rest) =>
      match takeRun (fun c => ! pySpace c) rest with
      | none => none
      | some (sku, rest) =>
        match takeRun pySpace rest with
        | none => none
        | some (_, rest) =>
          match takeRun Char.isDigit rest with
          | none => none
          | some (ds, _) => some (a, sku, digitsToNat ds)

/-- `re.search` of the order pattern: leftmost match attempt that succeeds
(`Series.str.extract` keeps the first match's groups, null when none). -/
def findOrder : List Char → Option (TradeAction × List Char × Nat)
  | [] => none
  | cs@(_ :: rest) =>
    match matchOrderAt cs with
    | some r => some r
    | none => findOrder rest

/-- A row of the `orders` frame after extraction, `dropna` and the sign
adjustment (lines 182-192).  `quantity` is the signed quantity: the parsed
digits negated for a buy (line 192). -/
structure OrderEvent where
  timestamp : Option DateTime
  trace_id : List Char
  details : List Char
  action : TradeAction
  sku : List Char
  quantity : Int
deriving DecidableEq, Repr

/-- Lines 182-192: filter `message_type == "ORDER"`, extract the pattern
groups, drop the rows where extraction failed, cast the quantity to int and
negate it for buys. -/
def ordersOf (es : List LogEntry) : List OrderEvent :=
  (es.filter fun e => e.message_type = ("ORDER".data : List Char)).filterMap
    fun e =>
      (findOrder e.details).map fun r =>
        { timestamp := e.timestamp
          trace_id := e.trace_id
          details := e.details
          action := r.1
          sku := r.2.1
          quantity :=
            if r.1 = TradeAction.buy then -(r.2.2 : Int) else (r.2.2 : Int) }

/-- A row of the `transactions` frame (lines 194-196): the settlement's
`details` kept verbatim as `transaction_amount`. -/
structure SettlementEvent where
  trace_id : List Char
  transaction_amount : List Char
deriving DecidableEq, Repr

def settlementsOf (es : List LogEntry) : List SettlementEvent :=
  (es.filter fun e => e.message_type = ("TRANSACTION".data : List Char)).map
    fun e => { trace_id := e.trace_id, transaction_amount := e.details }

/-- A row of the merged frame (line 198). -/
structure TxRecord where
  timestamp : Option DateTime
  trace_id : List Char
  details : List Char
  action : TradeAction
  sku : List Char
  quantity : Int
  transaction_amount : List Char
deriving DecidableEq, Repr

/-- `orders.merge(transactions, on="trace_id", how="inner")` (line 198): each
order row paired with every settlement row sharing its `trace_id`. -/
def correlate (orders : List OrderEvent) (settlements : List SettlementEvent) :
    List TxRecord :=
  orders.flatMap fun o =>
    (settlements.filter fun s => decide (s.trace_id = o.trace_id)).map fun s =>
      { timestamp := o.timestamp
        trace_id := o.trace_id
        details := o.details
        action := o.action
        sku := o.sku
        quantity := o.quantity
        transaction_amount := s.transaction_amount }

def extractTransactions (es : List LogEntry) : List TxRecord :=
  correlate (ordersOf es) (settlementsOf es)

/-! ## read_market_prices (lines 138-167) -/

/-- Does `cs` read `-<digits>` to the end of the string, one or more digits?
Python `$` also matches just before a single final newline, which the
`reduced` branch keeps faithful. -/
def dashDigitsEnd (cs : List Char) : Bool :=
  match cs with
  | [] => false
  | c :: ds =>
    let core := if ds.getLast? = some '\n' then ds.dropLast else ds
    c = '-' && ((! core.isEmpty) && core.all Char.isDigit)

/-- The lazy scan of `^(.*?)-\d+$`: the shortest capture (which `.` forbids
from crossing a newline) whose remainder is `-<digits>` to the end. -/
def skuScan : List Char → List Char → Option (List Char)
  | acc, rest =>
    if dashDigitsEnd rest then some acc.reverse
    else
      match rest with
      | [] => none
      | c :: rest' => if c = '\n' then none else skuScan (c :: acc) rest'

/-- `quote_id.str.extract(r"^(.*?)-\d+$")` (line 164): the derived sku, null
when the pattern does not match. -/
def skuOfQuote (q : List Char) : Option (List Char) :=
  skuScan [] q

/-- Does `q` end in a hyphen followed by one or more digits? (The claim's
phrasing of the suffix condition.) -/
def endsInDashDigits (q : List Char) : Bool :=
  let r := q.reverse
  let ds := r.takeWhile Char.isDigit
  (! ds.isEmpty) && (r.drop ds.length).head? = some '-'

/-- The trailing `-<digits>` suffix stripped: everything before the final
hyphen-digits group. -/
def stripDashDigits (q : List Char) : List Char :=
  (q.reverse.drop ((q.reverse.takeWhile Char.isDigit).length + 1)).reverse

/-- A raw market-price record as read from the parquet snapshot: `quote_id`,
a (valid) `timestamp` and the `price_usd` scalar. -/
structure RawPrice where
  quote_id : List Char
  timestamp : DateTime
  price_usd : Int
deriving DecidableEq, Repr

/-- A row of the processed `market_data` frame: the derived nullable `sku`
column added (line 164). -/
structure PriceRow where
  quote_id : List Char
  price_time : DateTime
  market_price : Int
  sku : Option (List Char)
deriving DecidableEq, Repr

/-- The market-price frame together with whether its columns exist:
`pd.DataFrame()` (the `except` path of lines 157-159) has no columns at all,
which is what the downstream `sort_values(['sku', 'price_time'])` trips on. -/
structure PriceDF where
  hasCols : Bool
  rows : List PriceRow
deriving DecidableEq, Repr

/-- `read_market_prices`: on a successful read the renamed rows with the
derived sku; on a read failure (lines 157-159) the empty, column-less frame. -/
def readMarketPrices (readOk : Bool) (raw : List RawPrice) : PriceDF :=
  if readOk then
    { hasCols := true
      rows := raw.map fun r =>
        { quote_id := r.quote_id
          price_time := r.timestamp
          market_price := r.price_usd
          sku := skuOfQuote r.quote_id } }
  else { hasCols := false, rows := [] }

/-! ## read_skus (lines 87-135) -/

/-- A flattened, renamed catalog row (the metadata fields the claims touch;
the remaining attribute columns behave identically). -/
structure CatalogRow where
  sku : List Char
  brand_id : Option (List Char)
  brand_name : Option (List Char)
  country_id : Option (List Char)
  country_name : Option (List Char)
deriving DecidableEq, Repr

/-- The catalog frame together with whether its `sku` column exists:
the missing-file path (lines 101-103) returns `pd.DataFrame()`, which has no
columns, so the later `merge(..., on="sku")` raises `KeyError`. -/
structure CatalogDF where
  hasSku : Bool
  rows : List CatalogRow
deriving DecidableEq, Repr

/-- `read_skus`: the flattened rows when the file exists, the empty
column-less frame when it does not (lines 101-103). -/
def readSkus (fileExists : Bool) (data : List CatalogRow) : CatalogDF :=
  if fileExists then { hasSku := true, rows := data }
  else { hasSku := false, rows := [] }

/-! ## enrich_transactions (lines 203-257) -/

/-- Ascending price-time order, the sort key of
`prices[...].sort_values("price_time")` (line 232). -/
def PriceTimeLE (p q : PriceRow) : Prop :=
  toSec p.price_time ≤ toSec q.price_time

instance : DecidableRel PriceTimeLE := fun p q =>
  inferInstanceAs (Decidable (toSec p.price_time ≤ toSec q.price_time))

instance : IsTotal PriceRow PriceTimeLE :=
  ⟨fun p q => Nat.le_total (toSec p.price_time) (toSec q.price_time)⟩

instance : IsTrans PriceRow PriceTimeLE :=
  ⟨fun _ _ _ => Nat.le_trans⟩

/-- The backward as-of lookup `pd.merge_asof(..., by="sku",
direction="backward", allow_exact_matches=True)` performs for one left row
(lines 230-238): over the time-sorted price rows, the last row of the same
sku partition whose `price_time` does not exceed the row's timestamp. -/
def asofLookup (ps : List PriceRow) (sku : List Char) (ts : DateTime) :
    Option PriceRow :=
  ps.foldl
    (fun acc p =>
      if p.sku = some sku ∧ toSec p.price_time ≤ toSec ts then some p else acc)
    none

/-- `transactions.merge(sku_df, on="sku", how="left")` (line 215): every
transaction row paired with each catalog row of equal sku, or with null
metadata when none matches. -/
def leftJoinCatalog (txs : List TxRecord) (cat : List CatalogRow) :
    List (TxRecord × Option CatalogRow) :=
  txs.flatMap fun t =>
    let ms := cat.filter fun c => decide (c.sku = t.sku)
    if ms.isEmpty then [(t, none)] else ms.map fun c => (t, some c)

/-- `merge_asof` refuses null merge keys: every left `timestamp` must be
non-null, and the checked rows carry the unwrapped timestamp. -/
def checkStamps :
    List (TxRecord × Option CatalogRow) →
      Option (List (TxRecord × Option CatalogRow × DateTime))
  | [] => some []
  | (t, m) :: rest =>
    match t.timestamp with
    | none => none
    | some ts => (checkStamps rest).map fun l => (t, m, ts) :: l

/-- Ascending transaction-timestamp order, the sort key of
`enriched.sort_values('timestamp')` (line 231). -/
def TxTimeLE (a b : TxRecord × Option CatalogRow × DateTime) : Prop :=
  toSec a.2.2 ≤ toSec b.2.2

instance : DecidableRel TxTimeLE := fun a b =>
  inferInstanceAs (Decidable (toSec a.2.2 ≤ toSec b.2.2))

instance : IsTotal (TxRecord × Option CatalogRow × DateTime) TxTimeLE :=
  ⟨fun a b => Nat.le_total (toSec a.2.2) (toSec b.2.2)⟩

instance : IsTrans (TxRecord × Option CatalogRow × DateTime) TxTimeLE :=
  ⟨fun _ _ _ => Nat.le_trans⟩

/-- A row of the final enriched frame after the column drop (lines 247-251):
retained identity and sku fields, nullable catalog metadata, the as-of match
(`price_time`, `market_price`), and the derived fields of lines 243-246. -/
structure EnrichedRow where
  timestamp : DateTime
  trace_id : List Char
  action : TradeAction
  sku : List Char
  quantity : Int
  meta : Option CatalogRow
  price_time : Option DateTime
  market_price : Option Int
  transaction_value : Option Int
  year : Nat
  quarter : String
  week : Nat
deriving DecidableEq, Repr

/-- One output row: the as-of match attached and the derived fields of lines
243-246 computed (`quantity * market_price` with null propagation, calendar
year, quarter label, ISO week). -/
def deriveRow (jr : TxRecord × Option CatalogRow × DateTime)
    (hit : Option PriceRow) : EnrichedRow :=
  { timestamp := jr.2.2
    trace_id := jr.1.trace_id
    action := jr.1.action
    sku := jr.1.sku
    quantity := jr.1.quantity
    meta := jr.2.1
    price_time := hit.map fun p => p.price_time
    market_price := hit.map fun p => p.market_price
    transaction_value := hit.map fun p => jr.1.quantity * p.market_price
    year := jr.2.2.year
    quarter := quarterLabel jr.2.2
    week := isoWeek jr.2.2 }

/-- Python string comparison: lexicographic on code points. -/
def strCmp : List Char → List Char → Ordering
  | [], [] => Ordering.eq
  | [], _ :: _ => Ordering.lt
  | _ :: _, [] => Ordering.gt
  | a :: as_, b :: bs =>
    if a < b then Ordering.lt
    else if b < a then Ordering.gt
    else strCmp as_ bs

/-- Descending `price_time` with nulls last: the second key of
`sort_values(["trace_id", "price_time"], ascending=[True, False])` (line 241,
`na_position='last'` by default). -/
def ptDescLE : Option DateTime → Option DateTime → Bool
  | some x, some y => decide (toSec y ≤ toSec x)
  | some _, none => true
  | none, some _ => false
  | none, none => true

/-- The comparator of the final sort (line 241): `trace_id` ascending, then
`price_time` descending with nulls last. -/
def rowLeB (a b : EnrichedRow) : Bool :=
  match strCmp a.trace_id b.trace_id with
  | Ordering.lt => true
  | Ordering.gt => false
  | Ordering.eq => ptDescLE a.price_time b.price_time

def RowLE (a b : EnrichedRow) : Prop := rowLeB a b = true

instance : DecidableRel RowLE := fun a b =>
  inferInstanceAs (Decidable (rowLeB a b = true))

/-- `enrich_transactions`: catalog left join, as-of price join, derived
fields, final sort.  The pandas failure modes surface as `Except.error`: a
column-less catalog frame breaks `merge(..., on="sku")` (line 215), a
column-less price frame breaks `sort_values(['sku', 'price_time'])`
(line 227), and a null left key breaks `merge_asof` (line 230); the
`__main__` handler turns any of these into an aborted run. -/
def enrichTransactions (txs : List TxRecord) (cat : CatalogDF)
    (pdf : PriceDF) : Except String (List EnrichedRow) :=
  if cat.hasSku = false then
    Except.error "KeyError: sku (catalog merge, line 215)"
  else if pdf.hasCols = false then
    Except.error "KeyError: sku (price sort, line 227)"
  else
    match checkStamps (leftJoinCatalog txs cat.rows) with
    | none => Except.error "ValueError: merge keys contain null values (merge_asof, line 230)"
    | some joined =>
      let joinedSorted := List.insertionSort TxTimeLE joined
      let ps := List.insertionSort PriceTimeLE pdf.rows
      let pre := joinedSorted.map fun jr =>
        deriveRow jr (asofLookup ps jr.1.sku jr.2.2)
      Except.ok (List.insertionSort RowLE pre)

/-! ## Concrete pipeline inputs used by witnesses and counterexamples -/

/-- The spec's §8 scenario log: one order and its settlement. -/
def sampleLog : String :=
  "2024-03-01 10:00:00 | ORDER | T1 | buy WINE-OPU-001 5\n2024-03-01 10:01:00 | TRANSACTION | T1 | 120.50"

def sampleTxs : List TxRecord := extractTransactions (parseLogs sampleLog)

def sampleCat : CatalogDF := readSkus true []

/-- The spec's §8 scenario price points, 24 at 09:00 and 25 at 11:00. -/
def samplePrices : PriceDF :=
  readMarketPrices true
    [{ quote_id := "WINE-OPU-001-101".data
       timestamp := ⟨2024, 3, 1, 9, 0, 0⟩
       price_usd := 24 },
     { quote_id := "WINE-OPU-001-102".data
       timestamp := ⟨2024, 3, 1, 11, 0, 0⟩
       price_usd := 25 }]

def sampleOut : List EnrichedRow :=
  (enrichTransactions sampleTxs sampleCat samplePrices).toOption.getD []

/-- The §8 scenario's expected enriched row: `signed_quantity = -5`,
`market_price = 24`, `transaction_value = -120`, `quarter = "2024Q1"`. -/
def sampleRow : EnrichedRow :=
  { timestamp := ⟨2024, 3, 1, 10, 0, 0⟩
    trace_id := "T1".data
    action := TradeAction.buy
    sku := "WINE-OPU-001".data
    quantity := -5
    meta := none
    price_time := some ⟨2024, 3, 1, 9, 0, 0⟩
    market_price := some 24
    transaction_value := some (-120)
    year := 2024
    quarter := "2024Q1"
    week := 9 }

/-- An incomplete (3-field) entry at the end of the merged text. -/
def c6text : String :=
  "2024-03-01 10:00:00 | ORDER | T1 | buy WINE-OPU-001 5\n2024-03-02 09:00:00 | RESULT |"

def c6entry : List Char := "2024-03-02 09:00:00 | RESULT |".data

/-- One sample order-extraction input and its extracted row. -/
def c2entry : LogEntry :=
  { timestamp := none
    message_type := "ORDER".data
    trace_id := "T1".data
    details := "buy WINE-OPU-001 5".data }

def c2order : OrderEvent :=
  { timestamp := none
    trace_id := "T1".data
    details := "buy WINE-OPU-001 5".data
    action := TradeAction.buy
    sku := "WINE-OPU-001".data
    quantity := -5 }

/-- Two transactions with distinct correlation ids, for the output-order
claim: the final sort puts trace "A" before trace "B". -/
def c9txs : List TxRecord :=
  [{ timestamp := some ⟨2024, 3, 1, 10, 0, 0⟩
     trace_id := "A".data
     details := []
     action := TradeAction.sell
     sku := "S".data
     quantity := 1
     transaction_amount := [] },
   { timestamp := some ⟨2024, 3, 1, 9, 0, 0⟩
     trace_id := "B".data
     details := []
     action := TradeAction.sell
     sku := "S".data
     quantity := 2
     transaction_amount := [] }]

def c9prices : PriceDF :=
  readMarketPrices true
    [{ quote_id := "S-1".data
       timestamp := ⟨2024, 3, 1, 8, 0, 0⟩
       price_usd := 10 }]

def c9out : List EnrichedRow :=
  (enrichTransactions c9txs sampleCat c9prices).toOption.getD []

/-! ## Theorems -/

/-- **C4** (code_bug): the fragment merge does *not* keep a newline boundary
between fragments.  With fragments `["abc", "def"]` (the first not
newline-terminated) the merged text is `"\nabcdef"`, and the physical line
`"abcdef"` is the concatenation of the two fragments' contents: lines 46-49
append *without* a separator exactly when the accumulated text does not end
in a newline, the inverse of the documented boundary guarantee. -/
theorem C4_run :
    mergeFragments ["abc", "def"] = "\nabcdef" ∧
    ("abc".data ++ "def".data) ∈ splitLines (mergeFragments ["abc", "def"]).data := by
  decide

/-- **C8** (code_bug): when the catalog file is absent `read_skus` does
return an empty frame, but that frame has no `sku` column, so
`enrich_transactions` raises `KeyError` at the catalog merge (line 215)
instead of continuing with all-null metadata; likewise a failed price read
returns the empty column-less frame and enrichment raises at the price sort
(line 227) instead of yielding all-null market prices.  The `__main__`
handler logs the exception and the run aborts with no enriched output. -/
theorem C8_run :
    (readSkus false []).rows = [] ∧
    sampleTxs ≠ [] ∧
    enrichTransactions sampleTxs (readSkus false []) samplePrices
      = Except.error "KeyError: sku (catalog merge, line 215)" ∧
    (readMarketPrices false []).rows = [] ∧
    enrichTransactions sampleTxs sampleCat (readMarketPrices false [])
      = Except.error "KeyError: sku (price sort, line 227)" := by
  refine ⟨by decide, by decide, rfl, by decide, rfl⟩

theorem spansFrom_length (l : List Nat) (len : Nat) :
    (spansFrom l len).length = l.length := by
  induction l with
  | nil => simp [spansFrom]
  | cons a t ih =>
    cases t with
    | nil => simp [spansFrom]
    | cons b t' => simp only [spansFrom, List.length_cons] at ih ⊢; omega

theorem spansFrom_map_fst (l : List Nat) (len : Nat) :
    (spansFrom l len).map Prod.fst = l := by
  induction l with
  | nil => simp [spansFrom]
  | cons a t ih =>
    cases t with
    | nil => simp [spansFrom]
    | cons b t' => simp only [spansFrom, List.map_cons] at ih ⊢; rw [ih]

theorem getLast?_cons_ne {α : Type} (a : α) (l : List α) (h : l ≠ []) :
    (a :: l).getLast? = l.getLast? := by
  cases l with
  | nil => exact absurd rfl h
  | cons b t => exact List.getLast?_cons_cons

theorem spansFrom_getLast? (l : List Nat) (len : Nat) :
    (spansFrom l len).getLast? = l.getLast?.map fun s => (s, len) := by
  induction l with
  | nil => simp [spansFrom]
  | cons a t ih =>
    cases t with
    | nil => simp [spansFrom]
    | cons b t' =>
      have hne : spansFrom (b :: t') len ≠ [] := by
        intro hz
        have := spansFrom_length (b :: t') len
        rw [hz] at this
        simp at this
      rw [spansFrom, getLast?_cons_ne _ _ hne, ih, List.getLast?_cons_cons]

/-- **C5** (confirmed): the entry loop (lines 66-70) reconstructs exactly one
entry per boundary-pattern match: the counts agree, each span starts at its
match's position, and the last span ends at the end of the merged text. -/
theorem C5_entry_count (t : String) :
    (entriesOf t.data).length = (boundaryPositions t.data).length ∧
    (spansOf t.data).map Prod.fst = boundaryPositions t.data ∧
    (spansOf t.data).getLast?
      = (boundaryPositions t.data).getLast?.map (fun s => (s, t.data.length)) := by
  refine ⟨?_, ?_, ?_⟩
  · simp [entriesOf, spansOf, spansFrom_length]
  · simp [spansOf, spansFrom_map_fst]
  · simp [spansOf, spansFrom_getLast?]

theorem correlate_countP (orders : List OrderEvent)
    (settlements : List SettlementEvent) (k : List Char) :
    ((correlate orders settlements).countP fun r => decide (r.trace_id = k))
      = (orders.countP fun o => decide (o.trace_id = k))
        * (settlements.countP fun s => decide (s.trace_id = k)) := by
  induction orders with
  | nil => simp [correlate]
  | cons o os ih =>
    rw [correlate, List.flatMap_cons, List.countP_append]
    rw [correlate] at ih
    rw [ih, List.countP_cons]
    rw [List.countP_map]
    by_cases hk : o.trace_id = k
    · have hfun :
          ((fun r : TxRecord => decide (r.trace_id = k)) ∘ fun s : SettlementEvent =>
              ({ timestamp := o.timestamp, trace_id := o.trace_id,
                 details := o.details, action := o.action, sku := o.sku,
                 quantity := o.quantity,
                 transaction_amount := s.transaction_amount } : TxRecord))
            = fun _ => true := by
        funext s; simp [hk]
      have hfilter :
          (fun s : SettlementEvent => decide (s.trace_id = o.trace_id))
            = fun s => decide (s.trace_id = k) := by
        funext s; rw [hk]
      rw [hfun, hfilter, List.countP_true, ← List.countP_eq_length_filter]
      have h1 : (if (fun o : OrderEvent => decide (o.trace_id = k)) o = true
          then (1 : Nat) else 0) = 1 := by simp [hk]
      rw [h1]
      ring
    · have hfun :
          ((fun r : TxRecord => decide (r.trace_id = k)) ∘ fun s : SettlementEvent =>
              ({ timestamp := o.timestamp, trace_id := o.trace_id,
                 details := o.details, action := o.action, sku := o.sku,
                 quantity := o.quantity,
                 transaction_amount := s.transaction_amount } : TxRecord))
            = fun _ => false := by
        funext s; simp [hk]
      rw [hfun, List.countP_false]
      simp [hk]

/-- **C3** (confirmed): the correlation step (line 198) is an inner join on
exact `trace_id` equality: for any correlation id `k`, the number of merged
rows carrying `k` is the number of matched order events carrying `k` times
the number of settlement events carrying `k` — in particular an id present
on only one side contributes zero rows, and the function is total, so an
unmatched id raises nothing. -/
theorem C3_join_cardinality (es : List LogEntry) (k : List Char) :
    ((extractTransactions es).countP fun r => decide (r.trace_id = k))
      = ((ordersOf es).countP fun o => decide (o.trace_id = k))
        * ((settlementsOf es).countP fun s => decide (s.trace_id = k)) :=
  correlate_countP (ordersOf es) (settlementsOf es) k

theorem mem_ordersOf {es : List LogEntry} {o : OrderEvent}
    (h : o ∈ ordersOf es) :
    ∃ e ∈ es, e.message_type = ("ORDER".data : List Char) ∧
      o.timestamp = e.timestamp ∧ o.trace_id = e.trace_id ∧
      o.details = e.details ∧
      ∃ r, findOrder e.details = some r ∧ o.action = r.1 ∧ o.sku = r.2.1 ∧
        o.quantity
          = (if r.1 = TradeAction.buy then -(r.2.2 : Int) else (r.2.2 : Int)) := by
  rw [ordersOf] at h
  rcases List.mem_filterMap.mp h with ⟨e, he, hfe⟩
  rcases List.mem_filter.mp he with ⟨hes, htype⟩
  refine ⟨e, hes, of_decide_eq_true htype, ?_⟩
  cases hfo : findOrder e.details with
  | none => rw [hfo] at hfe; simp at hfe
  | some r =>
    rw [hfo] at hfe
    simp only [Option.map] at hfe
    rw [Option.some.injEq] at hfe
    refine ⟨?_, ?_, ?_, r, rfl, ?_, ?_, ?_⟩ <;> rw [← hfe]

/-- **C2** (confirmed): every extracted order event (lines 182-192) with
nonzero parsed quantity satisfies the sign convention: the signed quantity is
negative for a buy and positive for a sell, and its absolute value is the
quantity the pattern parsed out of `details`. -/
theorem C2_sign (es : List LogEntry) (o : OrderEvent) (ho : o ∈ ordersOf es)
    (hq : o.quantity ≠ 0) :
    ∃ q : Nat, findOrder o.details = some (o.action, o.sku, q) ∧
      o.quantity.natAbs = q ∧
      (o.action = TradeAction.buy → o.quantity < 0) ∧
      (o.action = TradeAction.sell → 0 < o.quantity) := by
  rcases mem_ordersOf ho with
    ⟨e, _, _, _, _, hdet, r, hfo, hact, hsku, hqty⟩
  refine ⟨r.2.2, ?_, ?_, ?_, ?_⟩
  · rw [hdet, hfo, hact, hsku]
  · rw [hqty]
    by_cases hb : r.1 = TradeAction.buy
    · rw [if_pos hb]; simp
    · rw [if_neg hb]; simp
  · intro hb
    have hb' : r.1 = TradeAction.buy := hact.symm.trans hb
    rw [hqty, if_pos hb']
    rw [hqty, if_pos hb'] at hq
    omega
  · intro hs
    have hs' : r.1 = TradeAction.sell := hact.symm.trans hs
    have hnb : r.1 ≠ TradeAction.buy := by
      rw [hs']; exact fun hc => TradeAction.noConfusion hc
    rw [hqty, if_neg hnb]
    rw [hqty, if_neg hnb] at hq
    omega

theorem C2_sign_witness :
    ∃ q : Nat,
      findOrder c2order.details = some (c2order.action, c2order.sku, q) ∧
      c2order.quantity.natAbs = q ∧
      (c2order.action = TradeAction.buy → c2order.quantity < 0) ∧
      (c2order.action = TradeAction.sell → 0 < c2order.quantity) :=
  C2_sign [c2entry] c2order (by decide) (by decide)

theorem mem_settlementsOf {es : List LogEntry} {s : SettlementEvent}
    (h : s ∈ settlementsOf es) :
    ∃ e ∈ es, e.message_type = ("TRANSACTION".data : List Char) ∧
      s.trace_id = e.trace_id ∧ s.transaction_amount = e.details := by
  rw [settlementsOf] at h
  rcases List.mem_map.mp h with ⟨e, he, hse⟩
  rcases List.mem_filter.mp he with ⟨hes, htype⟩
  exact ⟨e, hes, by simpa using htype, by rw [← hse], by rw [← hse]⟩

theorem mem_correlate {orders : List OrderEvent}
    {settlements : List SettlementEvent} {t : TxRecord}
    (h : t ∈ correlate orders settlements) :
    ∃ o ∈ orders, ∃ s ∈ settlements, s.trace_id = o.trace_id ∧
      t.timestamp = o.timestamp ∧ t.trace_id = o.trace_id ∧
      t.details = o.details ∧ t.action = o.action ∧ t.sku = o.sku ∧
      t.quantity = o.quantity ∧
      t.transaction_amount = s.transaction_amount := by
  rw [correlate] at h
  rcases List.mem_flatMap.mp h with ⟨o, ho, hmap⟩
  rcases List.mem_map.mp hmap with ⟨s, hs, hts⟩
  rcases List.mem_filter.mp hs with ⟨hss, heq⟩
  refine ⟨o, ho, s, hss, by simpa using heq, ?_, ?_, ?_, ?_, ?_, ?_, ?_⟩ <;>
    rw [← hts]

theorem strCmp_eq_iff (a : List Char) : ∀ b, strCmp a b = Ordering.eq ↔ a = b := by
  induction a with
  | nil =>
    intro b
    cases b with
    | nil => simp [strCmp]
    | cons y ys => simp [strCmp]
  | cons x xs ih =>
    intro b
    cases b with
    | nil => simp [strCmp]
    | cons y ys =>
      rw [strCmp]
      by_cases h1 : x < y
      · rw [if_pos h1]
        constructor
        · intro hc; cases hc
        · intro hc
          injection hc with hx _
          exact absurd hx (ne_of_lt h1)
      · rw [if_neg h1]
        by_cases h2 : y < x
        · rw [if_pos h2]
          constructor
          · intro hc; cases hc
          · intro hc
            injection hc with hx _
            exact absurd hx.symm (ne_of_lt h2)
        · have hxy : x = y := le_antisymm (le_of_not_lt h2) (le_of_not_lt h1)
          rw [if_neg h2, ih ys]
          subst hxy
          simp

theorem strCmp_swap (a : List Char) : ∀ b, strCmp b a = (strCmp a b).swap := by
  induction a with
  | nil =>
    intro b
    cases b with
    | nil => rfl
    | cons y ys => rfl
  | cons x xs ih =>
    intro b
    cases b with
    | nil => rfl
    | cons y ys =>
      by_cases h1 : x < y
      · have h2 : ¬ y < x := asymm h1
        simp [strCmp, h1, h2, Ordering.swap]
      · by_cases h2 : y < x
        · simp [strCmp, h1, h2, Ordering.swap]
        · have hxy : x = y := le_antisymm (le_of_not_lt h2) (le_of_not_lt h1)
          subst hxy
          simp [strCmp, lt_irrefl, ih ys]

theorem ptDescLE_total (a b : Option DateTime) :
    ptDescLE a b = true ∨ ptDescLE b a = true := by
  cases a <;> cases b <;> simp [ptDescLE] <;> omega

theorem ptDescLE_trans {a b c : Option DateTime} (h1 : ptDescLE a b = true)
    (h2 : ptDescLE b c = true) : ptDescLE a c = true := by
  cases a <;> cases b <;> cases c <;> simp [ptDescLE] at * <;> omega

theorem strCmp_le_trans {a : List Char} : ∀ {b c : List Char},
    strCmp a b ≠ Ordering.gt → strCmp b c ≠ Ordering.gt →
    strCmp a c ≠ Ordering.gt := by
  induction a with
  | nil =>
    intro b c _ _
    cases c with
    | nil => simp [strCmp]
    | cons z zs => simp [strCmp]
  | cons x xs ih =>
    intro b c h1 h2
    cases b with
    | nil => simp [strCmp] at h1
    | cons y ys =>
      cases c with
      | nil => simp [strCmp] at h2
      | cons z zs =>
        rw [strCmp] at h1 h2 ⊢
        by_cases hxy : x < y
        · by_cases hyz : y < z
          · rw [if_pos (lt_trans hxy hyz)]
            simp
          · by_cases hzy : z < y
            · rw [if_neg hyz, if_pos hzy] at h2
              exact absurd rfl h2
            · have hyz' : y = z := le_antisymm (le_of_not_lt hzy) (le_of_not_lt hyz)
              subst hyz'
              rw [if_pos hxy]
              simp
        · by_cases hyx : y < x
          · rw [if_neg hxy, if_pos hyx] at h1
            exact absurd rfl h1
          · have hxy' : x = y := le_antisymm (le_of_not_lt hyx) (le_of_not_lt hxy)
            subst hxy'
            rw [if_neg (lt_irrefl x), if_neg (lt_irrefl x)] at h1
            by_cases hxz : x < z
            · rw [if_pos hxz]
              simp
            · by_cases hzx : z < x
              · rw [if_neg hxz, if_pos hzx] at h2
                exact absurd rfl h2
              · have hxz' : x = z := le_antisymm (le_of_not_lt hzx) (le_of_not_lt hxz)
                subst hxz'
                rw [if_neg (lt_irrefl x), if_neg (lt_irrefl x)] at h2 ⊢
                exact ih h1 h2

instance : IsTotal EnrichedRow RowLE := by
  constructor
  intro a b
  unfold RowLE rowLeB
  cases hc : strCmp a.trace_id b.trace_id with
  | lt => left; rfl
  | gt =>
    right
    have hba : strCmp b.trace_id a.trace_id = Ordering.lt := by
      rw [strCmp_swap a.trace_id b.trace_id, hc]; rfl
    rw [hba]
  | eq =>
    have hba : strCmp b.trace_id a.trace_id = Ordering.eq := by
      rw [strCmp_swap a.trace_id b.trace_id, hc]; rfl
    rcases ptDescLE_total a.price_time b.price_time with h | h
    · left; exact h
    · right; rw [hba]; exact h

instance : IsTrans EnrichedRow RowLE := by
  constructor
  intro a b c hab hbc
  unfold RowLE rowLeB at hab hbc ⊢
  cases h1 : strCmp a.trace_id b.trace_id <;> rw [h1] at hab <;>
    cases h2 : strCmp b.trace_id c.trace_id <;> rw [h2] at hbc
  · -- lt, lt
    have hne : strCmp a.trace_id c.trace_id ≠ Ordering.gt :=
      strCmp_le_trans (by rw [h1]; simp) (by rw [h2]; simp)
    cases h3 : strCmp a.trace_id c.trace_id with
    | lt => rfl
    | gt => exact absurd h3 hne
    | eq =>
      exfalso
      have hac : a.trace_id = c.trace_id := (strCmp_eq_iff _ _).mp h3
      rw [hac] at h1
      rw [strCmp_swap b.trace_id c.trace_id, h2] at h1
      cases h1
  · -- lt, eq
    have hbc' : b.trace_id = c.trace_id := (strCmp_eq_iff _ _).mp h2
    rw [← hbc', h1]
  · -- lt, gt
    cases hbc
  · -- eq, lt
    have hab' : a.trace_id = b.trace_id := (strCmp_eq_iff _ _).mp h1
    rw [hab', h2]
  · -- eq, eq
    have hab' : a.trace_id = b.trace_id := (strCmp_eq_iff _ _).mp h1
    rw [hab', h2]
    exact ptDescLE_trans hab hbc
  · -- eq, gt
    cases hbc
  · cases hab
  · cases hab
  · cases hab

/-- Eligibility of a price row for a transaction (`by="sku"`, backward
with exact matches allowed). -/
def eligible (sku : List Char) (ts : DateTime) (p : PriceRow) : Prop :=
  p.sku = some sku ∧ toSec p.price_time ≤ toSec ts

instance (sku : List Char) (ts : DateTime) : DecidablePred (eligible sku ts) :=
  fun p => inferInstanceAs (Decidable (_ ∧ _))

theorem asofLookup_eq_foldl (ps : List PriceRow) (sku : List Char)
    (ts : DateTime) :
    asofLookup ps sku ts
      = ps.foldl (fun acc p => if eligible sku ts p then some p else acc)
          none := rfl

theorem asofLookup_some {ps : List PriceRow} {sku : List Char} {ts : DateTime}
    {p : PriceRow} (hs : List.Sorted PriceTimeLE ps)
    (h : asofLookup ps sku ts = some p) :
    p ∈ ps ∧ p.sku = some sku ∧ toSec p.price_time ≤ toSec ts ∧
      ∀ q ∈ ps, q.sku = some sku → toSec q.price_time ≤ toSec ts →
        toSec q.price_time ≤ toSec p.price_time := by
  induction ps using List.reverseRecOn with
  | nil => cases h
  | append_singleton l a ih =>
    rw [asofLookup_eq_foldl, List.foldl_append] at h
    simp only [List.foldl_cons, List.foldl_nil] at h
    have hsl : List.Sorted PriceTimeLE l :=
      ((List.pairwise_append.mp hs).1)
    have hla : ∀ q ∈ l, PriceTimeLE q a := by
      intro q hq
      exact (List.pairwise_append.mp hs).2.2 q hq a (List.mem_singleton_self a)
    by_cases he : eligible sku ts a
    · rw [if_pos he] at h
      have hpa : p = a := (Option.some.inj h).symm
      subst hpa
      refine ⟨List.mem_append_right l (List.mem_singleton_self p), he.1, he.2, ?_⟩
      intro q hq _ _
      rcases List.mem_append.mp hq with hql | hqa
      · exact hla q hql
      · rw [List.mem_singleton.mp hqa]
    · rw [if_neg he, ← asofLookup_eq_foldl] at h
      rcases ih hsl h with ⟨hmem, hsku, hle, hmax⟩
      refine ⟨List.mem_append_left _ hmem, hsku, hle, ?_⟩
      intro q hq hqsku hqle
      rcases List.mem_append.mp hq with hql | hqa
      · exact hmax q hql hqsku hqle
      · have hqa' : q = a := List.mem_singleton.mp hqa
        rw [hqa'] at hqsku hqle
        exact absurd ⟨hqsku, hqle⟩ he

theorem asofLookup_none {ps : List PriceRow} {sku : List Char} {ts : DateTime}
    (h : asofLookup ps sku ts = none) :
    ∀ q ∈ ps, q.sku = some sku → ¬ toSec q.price_time ≤ toSec ts := by
  induction ps using List.reverseRecOn with
  | nil => intro q hq; cases hq
  | append_singleton l a ih =>
    rw [asofLookup_eq_foldl, List.foldl_append] at h
    simp only [List.foldl_cons, List.foldl_nil] at h
    by_cases he : eligible sku ts a
    · rw [if_pos he] at h
      cases h
    · rw [if_neg he, ← asofLookup_eq_foldl] at h
      intro q hq hqsku hqle
      rcases List.mem_append.mp hq with hql | hqa
      · exact ih h q hql hqsku hqle
      · rw [List.mem_singleton.mp hqa] at hqsku hqle
        exact he ⟨hqsku, hqle⟩

theorem asofLookup_sku (ps : List PriceRow) (sku : List Char) (ts : DateTime)
    (p : PriceRow) (h : asofLookup ps sku ts = some p) : p.sku = some sku := by
  induction ps using List.reverseRecOn with
  | nil => cases h
  | append_singleton l a ih =>
    rw [asofLookup_eq_foldl, List.foldl_append] at h
    simp only [List.foldl_cons, List.foldl_nil] at h
    by_cases he : eligible sku ts a
    · rw [if_pos he] at h
      rw [← Option.some.inj h]
      exact he.1
    · rw [if_neg he, ← asofLookup_eq_foldl] at h
      exact ih h

theorem enrich_ok_elim {txs : List TxRecord} {cat : CatalogDF} {pdf : PriceDF}
    {out : List EnrichedRow}
    (h : enrichTransactions txs cat pdf = Except.ok out) :
    ∃ joined, checkStamps (leftJoinCatalog txs cat.rows) = some joined ∧
      out = List.insertionSort RowLE
        ((List.insertionSort TxTimeLE joined).map fun jr =>
          deriveRow jr
            (asofLookup (List.insertionSort PriceTimeLE pdf.rows)
              jr.1.sku jr.2.2)) := by
  rw [enrichTransactions] at h
  by_cases h1 : cat.hasSku = false
  · rw [if_pos h1] at h; cases h
  · rw [if_neg h1] at h
    by_cases h2 : pdf.hasCols = false
    · rw [if_pos h2] at h; cases h
    · rw [if_neg h2] at h
      cases hcs : checkStamps (leftJoinCatalog txs cat.rows) with
      | none => rw [hcs] at h; cases h
      | some joined =>
        rw [hcs] at h
        exact ⟨joined, rfl, (Except.ok.inj h).symm⟩

theorem mem_enrich_out {txs : List TxRecord} {cat : CatalogDF} {pdf : PriceDF}
    {out : List EnrichedRow}
    (h : enrichTransactions txs cat pdf = Except.ok out) {r : EnrichedRow}
    (hr : r ∈ out) :
    ∃ joined jr, checkStamps (leftJoinCatalog txs cat.rows) = some joined ∧
      jr ∈ joined ∧
      r = deriveRow jr
        (asofLookup (List.insertionSort PriceTimeLE pdf.rows) jr.1.sku jr.2.2) := by
  rcases enrich_ok_elim h with ⟨joined, hcs, hout⟩
  rw [hout] at hr
  have hr1 := (List.perm_insertionSort RowLE _).mem_iff.mp hr
  rcases List.mem_map.mp hr1 with ⟨jr, hjr, hrd⟩
  exact ⟨joined, jr, hcs,
    (List.perm_insertionSort TxTimeLE joined).mem_iff.mp hjr, hrd.symm⟩

theorem mem_checkStamps {l : List (TxRecord × Option CatalogRow)} :
    ∀ {joined : List (TxRecord × Option CatalogRow × DateTime)},
    checkStamps l = some joined → ∀ jr ∈ joined,
      (jr.1, jr.2.1) ∈ l ∧ jr.1.timestamp = some jr.2.2 := by
  induction l with
  | nil =>
    intro joined h jr hjr
    rw [checkStamps] at h
    rw [← Option.some.inj h] at hjr
    cases hjr
  | cons pm rest ih =>
    intro joined h jr hjr
    obtain ⟨t, m⟩ := pm
    rw [checkStamps] at h
    cases hts : t.timestamp with
    | none => rw [hts] at h; cases h
    | some ts =>
      rw [hts] at h
      cases hcs : checkStamps rest with
      | none => rw [hcs] at h; cases h
      | some rest' =>
        rw [hcs] at h
        have hj : joined = (t, m, ts) :: rest' := by simpa using h.symm
        subst hj
        rcases List.mem_cons.mp hjr with h1 | h2
        · subst h1
          exact ⟨List.mem_cons_self _ _, hts⟩
        · rcases ih hcs jr h2 with ⟨hmem, hts'⟩
          exact ⟨List.mem_cons_of_mem _ hmem, hts'⟩

theorem mem_leftJoinCatalog {txs : List TxRecord} {cat : List CatalogRow}
    {pr : TxRecord × Option CatalogRow} (h : pr ∈ leftJoinCatalog txs cat) :
    pr.1 ∈ txs := by
  rw [leftJoinCatalog] at h
  rcases List.mem_flatMap.mp h with ⟨t, ht, hpr⟩
  by_cases hemp : (cat.filter fun c => decide (c.sku = t.sku)).isEmpty = true
  · rw [if_pos hemp] at hpr
    rw [List.mem_singleton.mp hpr]
    exact ht
  · rw [if_neg hemp] at hpr
    rcases List.mem_map.mp hpr with ⟨c, _, hc⟩
    rw [← hc]
    exact ht

/-- **C6** (confirmed): an entry that splits into fewer than 4 fields on
`" | "` (lines 72-78) contributes no parsed record — every kept record has
exactly 4 fields, so the short entry's field list is absent — the drop is a
local skip of a total function (no abort), and downstream rows are built
solely from parsed records: every transaction row's order fields and
settlement amount trace back to rows of `parseLogs`, and every enriched
output row traces back to a transaction row. -/
theorem C6_incomplete (t : String) (e : List Char) (_he : e ∈ entriesOf t.data)
    (h4 : (splitMax fieldSep 3 e).length < 4) :
    splitMax fieldSep 3 e ∉ recordsOf t.data ∧
    (∀ le ∈ parseLogs t, ∃ rec ∈ recordsOf t.data,
      rec.length = 4 ∧ le = toLogEntry rec) ∧
    (∀ tx ∈ extractTransactions (parseLogs t),
      ∃ o ∈ parseLogs t, o.message_type = ("ORDER".data : List Char) ∧
        tx.trace_id = o.trace_id ∧ tx.details = o.details ∧
        ∃ s ∈ parseLogs t, s.message_type = ("TRANSACTION".data : List Char) ∧
          s.trace_id = o.trace_id ∧ tx.transaction_amount = s.details) ∧
    (∀ (cat : CatalogDF) (pdf : PriceDF) (out : List EnrichedRow),
      enrichTransactions (extractTransactions (parseLogs t)) cat pdf
        = Except.ok out →
      ∀ r ∈ out, ∃ tx ∈ extractTransactions (parseLogs t),
        r.trace_id = tx.trace_id ∧ r.sku = tx.sku ∧
        r.quantity = tx.quantity ∧ r.action = tx.action) := by
  refine ⟨?_, ?_, ?_, ?_⟩
  · intro hmem
    rw [recordsOf] at hmem
    rcases List.mem_filterMap.mp hmem with ⟨e', _, hsome⟩
    by_cases hlen : (splitMax fieldSep 3 e').length = 4
    · rw [if_pos hlen] at hsome
      have := Option.some.inj hsome
      rw [this] at hlen
      omega
    · rw [if_neg hlen] at hsome
      cases hsome
  · intro le hle
    rw [parseLogs] at hle
    rcases List.mem_map.mp hle with ⟨rec, hrec, hr⟩
    refine ⟨rec, hrec, ?_, hr.symm⟩
    rw [recordsOf] at hrec
    rcases List.mem_filterMap.mp hrec with ⟨e', _, hsome⟩
    by_cases hlen : (splitMax fieldSep 3 e').length = 4
    · rw [if_pos hlen] at hsome
      rw [← Option.some.inj hsome]
      exact hlen
    · rw [if_neg hlen] at hsome
      cases hsome
  · intro tx htx
    rw [extractTransactions] at htx
    rcases mem_correlate htx with
      ⟨o, ho, s, hs, hst, _, htr, hdet, _, _, _, hamt⟩
    rcases mem_ordersOf ho with ⟨eo, heo, hot, _, hotr, hodet, _⟩
    rcases mem_settlementsOf hs with ⟨es_, hes, hstype, hstr, hsamt⟩
    refine ⟨eo, heo, hot, ?_, ?_, es_, hes, hstype, ?_, ?_⟩
    · rw [htr, hotr]
    · rw [hdet, hodet]
    · rw [← hstr, hst, hotr]
    · rw [hamt, hsamt]
  · intro cat pdf out hok r hr
    rcases mem_enrich_out hok hr with ⟨joined, jr, hcs, hjr, hrd⟩
    have h1 := mem_checkStamps hcs jr hjr
    have h2 := mem_leftJoinCatalog h1.1
    subst hrd
    exact ⟨jr.1, h2, rfl, rfl, rfl, rfl⟩

theorem C6_incomplete_witness :
    splitMax fieldSep 3 c6entry ∉ recordsOf c6text.data ∧
    (∀ le ∈ parseLogs c6text, ∃ rec ∈ recordsOf c6text.data,
      rec.length = 4 ∧ le = toLogEntry rec) ∧
    (∀ tx ∈ extractTransactions (parseLogs c6text),
      ∃ o ∈ parseLogs c6text, o.message_type = ("ORDER".data : List Char) ∧
        tx.trace_id = o.trace_id ∧ tx.details = o.details ∧
        ∃ s ∈ parseLogs c6text, s.message_type = ("TRANSACTION".data : List Char) ∧
          s.trace_id = o.trace_id ∧ tx.transaction_amount = s.details) ∧
    (∀ (cat : CatalogDF) (pdf : PriceDF) (out : List EnrichedRow),
      enrichTransactions (extractTransactions (parseLogs c6text)) cat pdf
        = Except.ok out →
      ∀ r ∈ out, ∃ tx ∈ extractTransactions (parseLogs c6text),
        r.trace_id = tx.trace_id ∧ r.sku = tx.sku ∧
        r.quantity = tx.quantity ∧ r.action = tx.action) :=
  C6_incomplete c6text c6entry (by decide) (by decide)

/-- **C9** (corrected): the final sort (line 241) uses
`ascending=[True, False]` — `trace_id` *ascending*, then the matched
`price_time` descending (nulls last) within equal ids; the claim's
"correlation_id descending" fails, see `C9_counterexample`. -/
theorem C9_output_order (txs : List TxRecord) (cat : CatalogDF) (pdf : PriceDF)
    (out : List EnrichedRow)
    (h : enrichTransactions txs cat pdf = Except.ok out) :
    out.Pairwise fun a b =>
      strCmp a.trace_id b.trace_id ≠ Ordering.gt ∧
      (a.trace_id = b.trace_id → ptDescLE a.price_time b.price_time = true) := by
  rcases enrich_ok_elim h with ⟨joined, _, hout⟩
  rw [hout]
  have hs := List.sorted_insertionSort RowLE
    ((List.insertionSort TxTimeLE joined).map fun jr =>
      deriveRow jr
        (asofLookup (List.insertionSort PriceTimeLE pdf.rows) jr.1.sku jr.2.2))
  refine hs.imp ?_
  intro a b hab
  unfold RowLE rowLeB at hab
  constructor
  · intro hgt
    rw [hgt] at hab
    cases hab
  · intro heq
    rw [(strCmp_eq_iff _ _).mpr heq] at hab
    exact hab

theorem C9_output_order_witness :
    c9out.Pairwise (fun a b =>
      strCmp a.trace_id b.trace_id ≠ Ordering.gt ∧
      (a.trace_id = b.trace_id → ptDescLE a.price_time b.price_time = true)) :=
  C9_output_order c9txs sampleCat c9prices c9out rfl

/-- **C9**'s counterexample: with trace ids "A" and "B" the enriched output
comes back in ascending id order, `["A", "B"]`, so the consecutive pair
violates "earlier row's correlation_id ≥ later row's" (descending). -/
theorem C9_counterexample :
    (c9out.map fun r => r.trace_id) = ["A".data, "B".data] ∧
    ¬ c9out.Pairwise fun a b =>
        strCmp a.trace_id b.trace_id ≠ Ordering.lt := by
  constructor
  · decide
  · decide

/-- **C1** (confirmed): in the enriched output, a non-null `market_price`
comes from a price row of the same sku whose `price_time` does not exceed
the transaction's timestamp (ties eligible) and is maximal among all such
rows — and a null `market_price` means no price row of that sku was
eligible. -/
theorem C1_asof_match (txs : List TxRecord) (cat : CatalogDF) (pdf : PriceDF)
    (out : List EnrichedRow)
    (h : enrichTransactions txs cat pdf = Except.ok out)
    (r : EnrichedRow) (hr : r ∈ out) :
    (∀ mp, r.market_price = some mp →
      ∃ p ∈ pdf.rows, p.sku = some r.sku ∧
        toSec p.price_time ≤ toSec r.timestamp ∧ p.market_price = mp ∧
        r.price_time = some p.price_time ∧
        ∀ q ∈ pdf.rows, q.sku = some r.sku →
          toSec q.price_time ≤ toSec r.timestamp →
          toSec q.price_time ≤ toSec p.price_time) ∧
    (r.market_price = none → ∀ q ∈ pdf.rows, q.sku = some r.sku →
      ¬ toSec q.price_time ≤ toSec r.timestamp) := by
  rcases mem_enrich_out h hr with ⟨joined, jr, _, _, hrd⟩
  have hperm := List.perm_insertionSort PriceTimeLE pdf.rows
  have hsorted := List.sorted_insertionSort PriceTimeLE pdf.rows
  subst hrd
  simp only [deriveRow]
  constructor
  · intro mp hmp
    cases hL : asofLookup (List.insertionSort PriceTimeLE pdf.rows)
        jr.1.sku jr.2.2 with
    | none => rw [hL] at hmp; cases hmp
    | some p =>
      rw [hL] at hmp
      have hmp' : p.market_price = mp := by
        simpa using hmp
      rcases asofLookup_some hsorted hL with ⟨hmem, hsku, hle, hmax⟩
      refine ⟨p, hperm.mem_iff.mp hmem, hsku, hle, hmp', rfl, ?_⟩
      intro q hq hqsku hqle
      exact hmax q (hperm.mem_iff.mpr hq) hqsku hqle
  · intro hnone q hq hqsku hqle
    cases hL : asofLookup (List.insertionSort PriceTimeLE pdf.rows)
        jr.1.sku jr.2.2 with
    | some p => rw [hL] at hnone; cases hnone
    | none =>
      exact asofLookup_none hL q (hperm.mem_iff.mpr hq) hqsku hqle

theorem C1_asof_match_witness :
    (∀ mp, sampleRow.market_price = some mp →
      ∃ p ∈ samplePrices.rows, p.sku = some sampleRow.sku ∧
        toSec p.price_time ≤ toSec sampleRow.timestamp ∧
        p.market_price = mp ∧
        sampleRow.price_time = some p.price_time ∧
        ∀ q ∈ samplePrices.rows, q.sku = some sampleRow.sku →
          toSec q.price_time ≤ toSec sampleRow.timestamp →
          toSec q.price_time ≤ toSec p.price_time) ∧
    (sampleRow.market_price = none →
      ∀ q ∈ samplePrices.rows, q.sku = some sampleRow.sku →
        ¬ toSec q.price_time ≤ toSec sampleRow.timestamp) :=
  C1_asof_match sampleTxs sampleCat samplePrices sampleOut rfl sampleRow
    (by decide)

/-- **C7** (confirmed): in every enriched row, `transaction_value` is the
signed quantity times the market price with null propagation (lines 243),
`year` is the timestamp's calendar year (line 244), `quarter` its
calendar-quarter label such as "2024Q1" (line 245), and `week` its ISO-8601
week number (line 246). -/
theorem C7_derived_fields (txs : List TxRecord) (cat : CatalogDF)
    (pdf : PriceDF) (out : List EnrichedRow)
    (h : enrichTransactions txs cat pdf = Except.ok out)
    (r : EnrichedRow) (hr : r ∈ out) :
    r.transaction_value = r.market_price.map (fun p => r.quantity * p) ∧
    (r.transaction_value = none ↔ r.market_price = none) ∧
    r.year = r.timestamp.year ∧
    r.quarter = quarterLabel r.timestamp ∧
    r.week = isoWeek r.timestamp := by
  rcases mem_enrich_out h hr with ⟨joined, jr, _, _, hrd⟩
  subst hrd
  simp only [deriveRow]
  refine ⟨?_, ?_, by trivial, by trivial, by trivial⟩
  · cases asofLookup (List.insertionSort PriceTimeLE pdf.rows)
        jr.1.sku jr.2.2 with
    | none => rfl
    | some p => rfl
  · cases asofLookup (List.insertionSort PriceTimeLE pdf.rows)
        jr.1.sku jr.2.2 with
    | none => simp
    | some p => simp

theorem C7_derived_fields_witness :
    sampleRow.transaction_value
      = sampleRow.market_price.map (fun p => sampleRow.quantity * p) ∧
    (sampleRow.transaction_value = none ↔ sampleRow.market_price = none) ∧
    sampleRow.year = sampleRow.timestamp.year ∧
    sampleRow.quarter = quarterLabel sampleRow.timestamp ∧
    sampleRow.week = isoWeek sampleRow.timestamp :=
  C7_derived_fields sampleTxs sampleCat samplePrices sampleOut rfl sampleRow
    (by decide)

theorem all_digits_getLast_ne_newline {ds : List Char}
    (hall : ds.all Char.isDigit = true) : ds.getLast? ≠ some '\n' := by
  intro hgl
  rcases List.getLast?_eq_some_iff.mp hgl with ⟨ys, hys⟩
  have hmem : '\n' ∈ ds := by
    rw [hys]
    exact List.mem_append_right _ (List.mem_singleton_self _)
  exact absurd (List.all_eq_true.mp hall '\n' hmem) (by decide)

theorem dashDigitsEnd_dash_digits {ds : List Char} (hne : ds ≠ [])
    (hall : ds.all Char.isDigit = true) :
    dashDigitsEnd ('-' :: ds) = true := by
  simp only [dashDigitsEnd]
  rw [if_neg (all_digits_getLast_ne_newline hall)]
  simp [hne, hall]

theorem dashDigitsEnd_elim {c : Char} {ds : List Char} (hnl : '\n' ∉ c :: ds)
    (h : dashDigitsEnd (c :: ds) = true) :
    c = '-' ∧ ds ≠ [] ∧ ds.all Char.isDigit = true := by
  simp only [dashDigitsEnd] at h
  have hgl : ds.getLast? ≠ some '\n' := by
    intro hgl
    rcases List.getLast?_eq_some_iff.mp hgl with ⟨ys, hys⟩
    refine hnl (List.mem_cons_of_mem c ?_)
    rw [hys]
    exact List.mem_append_right _ (List.mem_singleton_self _)
  rw [if_neg hgl] at h
  simp only [Bool.and_eq_true] at h
  rcases h with ⟨h1, h2, h3⟩
  refine ⟨of_decide_eq_true h1, ?_, h3⟩
  intro hdse
  rw [hdse] at h2
  exact absurd h2 (by decide)

theorem skuScan_some {rest : List Char} : ∀ {acc p : List Char},
    '\n' ∉ rest → skuScan acc rest = some p →
    ∃ mid ds, p = acc.reverse ++ mid ∧ rest = mid ++ '-' :: ds ∧
      ds ≠ [] ∧ ds.all Char.isDigit = true := by
  induction rest with
  | nil =>
    intro acc p _ h
    simp [skuScan, dashDigitsEnd] at h
  | cons c rest' ih =>
    intro acc p hnl h
    rw [skuScan] at h
    by_cases hd : dashDigitsEnd (c :: rest') = true
    · rw [if_pos hd] at h
      rcases dashDigitsEnd_elim hnl hd with ⟨hc, hne, hall⟩
      subst hc
      refine ⟨[], rest', ?_, by simp, hne, hall⟩
      rw [← Option.some.inj h]
      simp
    · rw [if_neg hd] at h
      have hc : c ≠ '\n' := fun hce => hnl (by rw [← hce]; exact List.mem_cons_self c rest')
      have h' : skuScan (c :: acc) rest' = some p := by
        have h2 : (if c = '\n' then none else skuScan (c :: acc) rest') = some p := h
        rwa [if_neg hc] at h2
      have hnl' : '\n' ∉ rest' := fun hm => hnl (List.mem_cons_of_mem c hm)
      rcases ih hnl' h' with ⟨mid, ds, hp, hrest, hds, hall⟩
      refine ⟨c :: mid, ds, ?_, by rw [hrest, List.cons_append], hds, hall⟩
      rw [hp]
      simp

theorem skuScan_of_decomp (p : List Char) : ∀ (acc ds : List Char),
    '\n' ∉ p → ds ≠ [] → ds.all Char.isDigit = true →
    skuScan acc (p ++ '-' :: ds) = some (acc.reverse ++ p) := by
  induction p with
  | nil =>
    intro acc ds _ hne hall
    show skuScan acc ('-' :: ds) = some (acc.reverse ++ [])
    rw [skuScan, if_pos (dashDigitsEnd_dash_digits hne hall)]
    simp
  | cons c p' ih =>
    intro acc ds hnl hne hall
    have hc : c ≠ '\n' := fun hce => hnl (by rw [← hce]; exact List.mem_cons_self c p')
    have hnl' : '\n' ∉ p' := fun hm => hnl (List.mem_cons_of_mem c hm)
    have hdd : ¬ dashDigitsEnd (c :: (p' ++ '-' :: ds)) = true := by
      intro hdt
      have hnlall : '\n' ∉ c :: (p' ++ '-' :: ds) := by
        intro hm
        rcases List.mem_cons.mp hm with h1 | h2
        · exact hc h1.symm
        rcases List.mem_append.mp h2 with h3 | h4
        · exact hnl' h3
        rcases List.mem_cons.mp h4 with h5 | h6
        · exact absurd h5 (by decide)
        · exact absurd (List.all_eq_true.mp hall '\n' h6) (by decide)
      rcases dashDigitsEnd_elim hnlall hdt with ⟨_, _, hall'⟩
      have hmem : '-' ∈ p' ++ '-' :: ds :=
        List.mem_append_right _ (List.mem_cons_self _ _)
      exact absurd (List.all_eq_true.mp hall' '-' hmem) (by decide)
    show skuScan acc (c :: (p' ++ '-' :: ds)) = some (acc.reverse ++ (c :: p'))
    rw [skuScan, if_neg hdd]
    show (if c = '\n' then none
      else skuScan (c :: acc) (p' ++ '-' :: ds)) = some (acc.reverse ++ (c :: p'))
    rw [if_neg hc, ih (c :: acc) ds hnl' hne hall]
    simp

/-- **C10** (corrected): for a newline-free `quote_id` the derived sku is
exactly the prefix before a final `-<digits>` suffix — `skuOfQuote q = some p`
iff `q = p ++ "-" ++ ds` with `ds` a non-empty digit run — and when no such
decomposition exists the sku is null; and a price row whose sku is null is
never the row the as-of lookup matches (the matched row's sku always equals
the transaction's non-null sku).  Quote ids containing newlines deviate, see
`C10_counterexample`. -/
theorem C10_sku_extract :
    (∀ q p : List Char, '\n' ∉ q →
      (skuOfQuote q = some p ↔
        ∃ ds, ds ≠ [] ∧ ds.all Char.isDigit = true ∧ q = p ++ '-' :: ds)) ∧
    (∀ q : List Char, '\n' ∉ q →
      (¬ ∃ p ds, ds ≠ [] ∧ ds.all Char.isDigit = true ∧ q = p ++ '-' :: ds) →
      skuOfQuote q = none) ∧
    (∀ (ps : List PriceRow) (sku : List Char) (ts : DateTime) (p : PriceRow),
      asofLookup ps sku ts = some p → p.sku = some sku) := by
  have hiff : ∀ q p : List Char, '\n' ∉ q →
      (skuOfQuote q = some p ↔
        ∃ ds, ds ≠ [] ∧ ds.all Char.isDigit = true ∧ q = p ++ '-' :: ds) := by
    intro q p hnl
    constructor
    · intro h
      rcases skuScan_some hnl h with ⟨mid, ds, hp, hq, hds, hall⟩
      have hp' : p = mid := by simpa using hp
      exact ⟨ds, hds, hall, by rw [hq, hp']⟩
    · rintro ⟨ds, hds, hall, hq⟩
      have hnlp : '\n' ∉ p := by
        intro hm
        exact hnl (by rw [hq]; exact List.mem_append_left _ hm)
      rw [skuOfQuote, hq, skuScan_of_decomp p [] ds hnlp hds hall]
      simp
  refine ⟨hiff, ?_, asofLookup_sku⟩
  intro q hnl hno
  cases hsq : skuOfQuote q with
  | none => rfl
  | some p =>
    rcases (hiff q p hnl).mp hsq with ⟨ds, hds, hall, hq⟩
    exact absurd ⟨p, ds, hds, hall, hq⟩ hno

/-- **C10**'s counterexample: `quote_id = "A-1\n"` does *not* end in a hyphen
followed by digits (its last character is a newline), yet the derived sku is
`"A"`, not null — Python's `$` matches just before a final newline. -/
theorem C10_counterexample :
    skuOfQuote ("A-1\n".data) = some ("A".data) ∧
    ¬ ∃ p ds, ds ≠ [] ∧ ds.all Char.isDigit = true ∧
        ("A-1\n".data) = p ++ '-' :: ds := by
  constructor
  · decide
  · rintro ⟨p, ds, hne, hall, hq⟩
    have h1 : ("A-1\n".data).getLast? = some '\n' := by decide
    rw [hq, List.getLast?_append] at h1
    have h2 : ('-' :: ds).getLast? = ds.getLast? := getLast?_cons_ne '-' ds hne
    rw [h2] at h1
    obtain ⟨d, hgl⟩ : ∃ d, ds.getLast? = some d := by
      cases hgl' : ds.getLast? with
      | none => exact absurd (List.getLast?_eq_none_iff.mp hgl') hne
      | some d => exact ⟨d, rfl⟩
    rw [hgl] at h1
    have hd : d = '\n' := by simpa using h1
    exact all_digits_getLast_ne_newline hall (by rw [hgl, hd])

end Ferovinum
